import Mathlib

/-!
Verification of the Connect Four game engine (`src/commands/game_c4/`):
`Board<T>` (board.rs), `Player` (player.rs), `GameStatus` (game_status.rs),
`Direction` (direction.rs), `Token<T>` (token.rs) and the two-player engine
`ConnectFour2p` (c4_2p.rs).

The Rust `HashMap<i32, Token<T>>` backing `Board` is modelled as an
association list with distinct keys: `insert` replaces any existing binding
(so `len` behaves like `HashMap::len`), `get` looks the key up.
`i32` values are modelled as `Int` (no arithmetic here ever approaches the
`i32` range on the boards the program builds).
-/

/-- `Player` (player.rs). -/
inductive Player where
  | Red : Player
  | Blue : Player
deriving DecidableEq, Repr

/-- `impl Not for Player` (player.rs): swaps the two players. -/
def Player.toggle : Player → Player
  | Player.Red => Player.Blue
  | Player.Blue => Player.Red

/-- `GameStatus` (game_status.rs). -/
inductive GameStatus where
  | Closed : GameStatus
  | Playing : GameStatus
  | Won : Player → GameStatus
deriving DecidableEq, Repr

/-- `Direction` (direction.rs). -/
inductive Direction where
  | North | NorthEast | East | SouthEast | South | SouthWest | West | NorthWest
deriving DecidableEq, Repr

/-- `impl Not for Direction` (direction.rs): the opposite compass direction. -/
def Direction.opp : Direction → Direction
  | Direction.North => Direction.South
  | Direction.NorthEast => Direction.SouthWest
  | Direction.East => Direction.West
  | Direction.SouthEast => Direction.NorthWest
  | Direction.South => Direction.North
  | Direction.SouthWest => Direction.NorthEast
  | Direction.West => Direction.East
  | Direction.NorthWest => Direction.SouthEast

/-- The (row, column) offset `Board::get_neighbor` adds for a direction. -/
def Direction.step : Direction → Int × Int
  | Direction.North => (-1, 0)
  | Direction.NorthEast => (-1, 1)
  | Direction.East => (0, 1)
  | Direction.SouthEast => (1, 1)
  | Direction.South => (1, 0)
  | Direction.SouthWest => (1, -1)
  | Direction.West => (0, -1)
  | Direction.NorthWest => (-1, -1)

/-- `Token<T>` (token.rs). -/
structure Token (T : Type) where
  row : Int
  column : Int
  value : T
deriving DecidableEq, Repr

/-- `HashMap::get` on the association-list model. -/
def hmGet {T : Type} (data : List (Int × Token T)) (k : Int) : Option (Token T) :=
  (data.find? (fun e => decide (e.1 = k))).map Prod.snd

/-- `HashMap::insert` on the association-list model: replaces any old binding. -/
def hmInsert {T : Type} (data : List (Int × Token T)) (k : Int) (t : Token T) :
    List (Int × Token T) :=
  (k, t) :: data.filter (fun e => decide (e.1 ≠ k))

/-- `Board<T>` (board.rs). -/
structure Board (T : Type) where
  width : Int
  height : Int
  data : List (Int × Token T)
deriving DecidableEq, Repr

namespace Board

/-- `Board::new` (board.rs): dimensions are stored unvalidated, the map empty. -/
def new (T : Type) (width height : Int) : Board T :=
  { width := width, height := height, data := [] }

/-- `Board::rc_to_index` (board.rs). -/
def rc_to_index {T : Type} (b : Board T) (row column : Int) : Int :=
  row * b.width + column

/-- `Board::set` (board.rs): inserts unconditionally, with no bounds check. -/
def set {T : Type} (b : Board T) (row column : Int) (value : T) : Board T :=
  { b with data := hmInsert b.data (b.rc_to_index row column) ⟨row, column, value⟩ }

/-- `Board::get` (board.rs): `None` out of bounds, else the map lookup. -/
def get {T : Type} (b : Board T) (row column : Int) : Option (Token T) :=
  if 0 ≤ row ∧ row < b.height ∧ 0 ≤ column ∧ column < b.width then
    hmGet b.data (b.rc_to_index row column)
  else
    none

/-- `Board::get_neighbor` (board.rs). -/
def get_neighbor {T : Type} (b : Board T) (row column : Int) (d : Direction) :
    Option (Token T) :=
  match d with
  | Direction.North => b.get (row - 1) column
  | Direction.NorthEast => b.get (row - 1) (column + 1)
  | Direction.East => b.get row (column + 1)
  | Direction.SouthEast => b.get (row + 1) (column + 1)
  | Direction.South => b.get (row + 1) column
  | Direction.SouthWest => b.get (row + 1) (column - 1)
  | Direction.West => b.get row (column - 1)
  | Direction.NorthWest => b.get (row - 1) (column - 1)

/-- Body of `Board::count_in_direction` (board.rs), with explicit fuel.
The Rust recursion terminates because every recursive call is at an in-bounds
cell strictly further along `d`; `count_in_direction` below supplies fuel
exceeding that depth. -/
def countFuel {T : Type} [DecidableEq T] (b : Board T) :
    Nat → Int → Int → Direction → Int
  | 0, _, _, _ => 0
  | fuel + 1, row, column, d =>
    match b.get row column with
    | none => 0
    | some lhs =>
      match b.get_neighbor row column d with
      | some rhs =>
        if rhs.value = lhs.value then
          1 + countFuel b fuel rhs.row rhs.column d
        else 1
      | none => 1

/-- `Board::count_in_direction` (board.rs). -/
def count_in_direction {T : Type} [DecidableEq T] (b : Board T)
    (row column : Int) (d : Direction) : Int :=
  countFuel b (b.width.toNat + b.height.toNat + 1) row column d

/-- `Board::count_in_bidirection` (board.rs). -/
def count_in_bidirection {T : Type} [DecidableEq T] (b : Board T)
    (row column : Int) (d : Direction) : Int :=
  b.count_in_direction row column d + b.count_in_direction row column d.opp - 1

end Board

/-- `ConnectFour2p` (c4_2p.rs). -/
structure ConnectFour2p where
  turn : Player
  state : GameStatus
  board : Board Player
  last_pos_r : Int
  last_pos_c : Int
deriving DecidableEq, Repr

namespace ConnectFour2p

/-- `ConnectFour2p::new` (c4_2p.rs). -/
def new (width height : Int) : ConnectFour2p :=
  { state := GameStatus.Playing
    turn := Player.Red
    board := Board.new Player width height
    last_pos_r := 0
    last_pos_c := 0 }

/-- `ConnectFour2p::close` (c4_2p.rs): unconditionally sets `Closed`. -/
def close (g : ConnectFour2p) : ConnectFour2p :=
  { g with state := GameStatus.Closed }

/-- `ConnectFour2p::get_winner` (c4_2p.rs). -/
def get_winner (g : ConnectFour2p) : Option Player :=
  match g.state with
  | GameStatus.Won player => some player
  | _ =>
    let row := g.last_pos_r
    let column := g.last_pos_c
    let n_s := g.board.count_in_bidirection row column Direction.North
    let ne_sw := g.board.count_in_bidirection row column Direction.NorthEast
    let e_w := g.board.count_in_bidirection row column Direction.East
    let se_nw := g.board.count_in_bidirection row column Direction.NorthWest
    let max := Max.max (Max.max (Max.max n_s ne_sw) e_w) se_nw
    if max ≥ 4 then some g.turn else none

/-- The engine right after `emplace` has written the token and recorded the
move, before the win/draw checks run. -/
def placedInterim (g : ConnectFour2p) (column row : Int) : ConnectFour2p :=
  { g with board := g.board.set row column g.turn
           last_pos_r := row
           last_pos_c := column }

/-- The loop body of `ConnectFour2p::emplace` once an empty cell at
`(row, column)` has been found: place, record the move, run the win check,
then the draw check, then toggle the turn. -/
def placeResult (g : ConnectFour2p) (column row : Int) : ConnectFour2p :=
  let g1 := placedInterim g column row
  let g2 :=
    match g1.get_winner with
    | some player => { g1 with state := GameStatus.Won player }
    | none =>
      if (g1.board.data.length : Int) = g1.board.width * g1.board.height then
        { g1 with state := GameStatus.Closed }
      else g1
  { g2 with turn := g2.turn.toggle }

/-- The row scan of `ConnectFour2p::emplace` over a list of candidate rows. -/
def emplaceScan (g : ConnectFour2p) (column : Int) :
    List Int → ConnectFour2p × Bool
  | [] => (g, false)
  | row :: rest =>
    if (g.board.get row column).isNone then (g.placeResult column row, true)
    else emplaceScan g column rest

/-- The rows `height - 1, height - 2, ..., 0`: the Rust iterator
`(0..height).rev()`. -/
def rowList (height : Int) : List Int :=
  ((List.range height.toNat).reverse).map Int.ofNat

/-- `ConnectFour2p::emplace` (c4_2p.rs). Returns the new engine state and the
Rust return value. -/
def emplace (g : ConnectFour2p) (column : Int) : ConnectFour2p × Bool :=
  if g.state = GameStatus.Playing ∧ 0 ≤ column ∧ column < g.board.width then
    emplaceScan g column (rowList g.board.height)
  else
    (g, false)

/-- Run a sequence of `emplace` calls, discarding the returned Booleans. -/
def playSeq (g : ConnectFour2p) (columns : List Int) : ConnectFour2p :=
  columns.foldl (fun s c => (s.emplace c).1) g

/-- Engine states reachable from `new` by `emplace` and `close` calls. -/
inductive Reachable : ConnectFour2p → Prop where
  | new (width height : Int) : Reachable (ConnectFour2p.new width height)
  | emplace (g : ConnectFour2p) (column : Int) :
      Reachable g → Reachable (g.emplace column).1
  | close (g : ConnectFour2p) : Reachable g → Reachable g.close

/-- Engine states reachable from `new` when `close` is never invoked while
the status is `Won` (the discipline the calling layer follows). -/
inductive ReachableNoCloseOnWon : ConnectFour2p → Prop where
  | new (width height : Int) : ReachableNoCloseOnWon (ConnectFour2p.new width height)
  | emplace (g : ConnectFour2p) (column : Int) :
      ReachableNoCloseOnWon g → ReachableNoCloseOnWon (g.emplace column).1
  | close (g : ConnectFour2p) : ReachableNoCloseOnWon g →
      (∀ p, g.state ≠ GameStatus.Won p) → ReachableNoCloseOnWon g.close

end ConnectFour2p

/-! ### Association-list map lemmas -/

theorem hmGet_insert_self {T : Type} (data : List (Int × Token T)) (k : Int)
    (t : Token T) : hmGet (hmInsert data k t) k = some t := by
  simp [hmGet, hmInsert, List.find?_cons]

theorem find?_filter_of_imp {α : Type} (l : List α) (p q : α → Bool)
    (h : ∀ e, p e = true → q e = true) :
    (l.filter q).find? p = l.find? p := by
  induction l with
  | nil => rfl
  | cons a l ih =>
    by_cases hq : q a = true
    · simp only [List.filter_cons, hq, if_true, List.find?_cons]
      cases hp : p a <;> simp [ih]
    · have hp : p a = false := by
        cases hpa : p a
        · rfl
        · exact absurd (h a hpa) hq
      simp only [List.filter_cons, hq, if_false, List.find?_cons, hp]
      exact ih

theorem hmGet_insert_ne {T : Type} (data : List (Int × Token T)) (k k' : Int)
    (t : Token T) (h : k' ≠ k) :
    hmGet (hmInsert data k t) k' = hmGet data k' := by
  unfold hmGet hmInsert
  rw [List.find?_cons_of_neg]
  · rw [find?_filter_of_imp]
    intro e he
    simp at he ⊢
    omega
  · simp
    exact fun hh => h hh.symm

theorem hm_filter_of_absent {T : Type} (data : List (Int × Token T)) (k : Int)
    (h : hmGet data k = none) :
    data.filter (fun e => decide (e.1 ≠ k)) = data := by
  rw [List.filter_eq_self]
  intro e he
  simp only [hmGet, Option.map_eq_none'] at h
  have := List.find?_eq_none.mp h e he
  simp at this ⊢
  exact this

/-! ### Board lemmas -/

namespace Board

theorem get_some_bounds {T : Type} (b : Board T) (r c : Int) (t : Token T)
    (h : b.get r c = some t) :
    0 ≤ r ∧ r < b.height ∧ 0 ≤ c ∧ c < b.width := by
  by_contra hb
  simp only [get, if_neg hb] at h
  exact Option.noConfusion h

/-- `rc_to_index` is injective on coordinates whose column is in range. -/
theorem index_inj {T : Type} (b : Board T) (r c r' c' : Int)
    (hc : 0 ≤ c ∧ c < b.width) (hc' : 0 ≤ c' ∧ c' < b.width)
    (h : b.rc_to_index r c = b.rc_to_index r' c') : r = r' ∧ c = c' := by
  unfold rc_to_index at h
  have hw : 0 < b.width := lt_of_le_of_lt hc.1 hc.2
  have hcc : c = c' := by
    have h1 : (c + b.width * r) % b.width = c % b.width :=
      Int.add_mul_emod_self_left c b.width r
    have h2 : (c' + b.width * r') % b.width = c' % b.width :=
      Int.add_mul_emod_self_left c' b.width r'
    have he : c + b.width * r = c' + b.width * r' := by linarith [h]
    rw [Int.emod_eq_of_lt hc.1 hc.2] at h1
    rw [Int.emod_eq_of_lt hc'.1 hc'.2] at h2
    rw [he] at h1
    omega
  constructor
  · subst hcc
    have : r * b.width = r' * b.width := by omega
    exact mul_right_cancel₀ (ne_of_gt hw) this
  · exact hcc

theorem width_set {T : Type} (b : Board T) (r c : Int) (v : T) :
    (b.set r c v).width = b.width := rfl

theorem height_set {T : Type} (b : Board T) (r c : Int) (v : T) :
    (b.set r c v).height = b.height := rfl

theorem get_set_self {T : Type} (b : Board T) (r c : Int) (v : T)
    (hr : 0 ≤ r ∧ r < b.height) (hc : 0 ≤ c ∧ c < b.width) :
    (b.set r c v).get r c = some ⟨r, c, v⟩ := by
  unfold get set
  simp only [if_pos (And.intro hr.1 (And.intro hr.2 hc))]
  exact hmGet_insert_self b.data _ _

theorem get_set_ne_index {T : Type} (b : Board T) (r c r' c' : Int) (v : T)
    (h : b.rc_to_index r' c' ≠ b.rc_to_index r c) :
    (b.set r c v).get r' c' = b.get r' c' := by
  unfold get set
  by_cases hb : 0 ≤ r' ∧ r' < b.height ∧ 0 ≤ c' ∧ c' < b.width
  · simp only [if_pos hb]
    exact hmGet_insert_ne b.data _ _ _ h
  · simp only [if_neg hb]

/-- `set` at an in-bounds coordinate leaves every other coordinate's `get`
unchanged. -/
theorem get_set_ne {T : Type} (b : Board T) (r c r' c' : Int) (v : T)
    (hc : 0 ≤ c ∧ c < b.width)
    (h : ¬(r' = r ∧ c' = c)) :
    (b.set r c v).get r' c' = b.get r' c' := by
  by_cases hb : 0 ≤ r' ∧ r' < b.height ∧ 0 ≤ c' ∧ c' < b.width
  · apply get_set_ne_index
    intro hidx
    exact h (index_inj b r' c' r c ⟨hb.2.2.1, hb.2.2.2⟩ hc hidx)
  · have h1 : (b.set r c v).get r' c' = none := by
      unfold get
      rw [if_neg]
      exact hb
    have h2 : b.get r' c' = none := by
      unfold get
      rw [if_neg]
      exact hb
    rw [h1, h2]

/-- Well-formedness: every stored entry sits at the index of its token's
coordinates, and those coordinates are in bounds.  Holds for every board the
engine ever builds; out-of-bounds `Board::set` calls (which the engine never
makes) could break it. -/
def WF {T : Type} (b : Board T) : Prop :=
  ∀ e ∈ b.data,
    e.1 = b.rc_to_index e.2.row e.2.column ∧
    0 ≤ e.2.row ∧ e.2.row < b.height ∧ 0 ≤ e.2.column ∧ e.2.column < b.width

theorem WF_new (T : Type) (w h : Int) : WF (Board.new T w h) := by
  intro e he
  exact absurd he (List.not_mem_nil e)

theorem WF_set {T : Type} (b : Board T) (r c : Int) (v : T)
    (hb : WF b) (hr : 0 ≤ r ∧ r < b.height) (hc : 0 ≤ c ∧ c < b.width) :
    WF (b.set r c v) := by
  intro e he
  simp only [set, hmInsert, List.mem_cons] at he
  rcases he with he | he
  · subst he
    exact ⟨rfl, hr.1, hr.2, hc.1, hc.2⟩
  · exact hb e (List.mem_filter.mp he).1

/-- On a well-formed board, a fetched token carries its own coordinates. -/
theorem WF_get_coords {T : Type} (b : Board T) (r c : Int) (t : Token T)
    (hb : WF b) (h : b.get r c = some t) : t.row = r ∧ t.column = c := by
  have hbnd := get_some_bounds b r c t h
  unfold get at h
  rw [if_pos ⟨hbnd.1, hbnd.2.1, hbnd.2.2⟩] at h
  unfold hmGet at h
  cases hf : b.data.find? (fun e => decide (e.1 = b.rc_to_index r c)) with
  | none => rw [hf] at h; exact Option.noConfusion h
  | some e =>
    rw [hf] at h
    have hkey : e.1 = b.rc_to_index r c := by
      have := List.find?_some hf
      simpa using this
    have hmem := List.mem_of_find?_eq_some hf
    have hwf := hb e hmem
    have hval : e.2 = t := by simpa using h
    subst hval
    have := index_inj b e.2.row e.2.column r c
      ⟨hwf.2.2.2.1, hwf.2.2.2.2⟩ ⟨hbnd.2.2.1, hbnd.2.2.2⟩
      (by rw [← hwf.1, hkey])
    exact this

end Board

/-! ### Directional-count lemmas -/

theorem Direction.opp_step (d : Direction) :
    d.opp.step = (-d.step.1, -d.step.2) := by
  cases d <;> rfl

theorem Direction.step_shape (d : Direction) :
    (d.step.1 = 1 ∨ d.step.1 = -1) ∨
      (d.step.1 = 0 ∧ (d.step.2 = 1 ∨ d.step.2 = -1)) := by
  cases d <;> simp [Direction.step]

namespace Board

theorem get_neighbor_eq_step {T : Type} (b : Board T) (r c : Int)
    (d : Direction) :
    b.get_neighbor r c d = b.get (r + d.step.1) (c + d.step.2) := by
  cases d <;> simp [get_neighbor, Direction.step, sub_eq_add_neg]

theorem countFuel_nonneg {T : Type} [DecidableEq T] (b : Board T)
    (d : Direction) : ∀ fuel r c, 0 ≤ countFuel b fuel r c d := by
  intro fuel
  induction fuel with
  | zero => intro r c; simp [countFuel]
  | succ n ih =>
    intro r c
    unfold countFuel
    cases b.get r c with
    | none => simp
    | some lhs =>
      cases b.get_neighbor r c d with
      | none => simp
      | some rhs =>
        by_cases hv : rhs.value = lhs.value
        · simp only [hv, if_true]
          have := ih rhs.row rhs.column
          omega
        · simp only [hv, if_false]
          omega

theorem countFuel_pos {T : Type} [DecidableEq T] (b : Board T) (d : Direction)
    (fuel : Nat) (r c : Int) (t : Token T)
    (h : b.get r c = some t) : 1 ≤ countFuel b (fuel + 1) r c d := by
  unfold countFuel
  rw [h]
  cases b.get_neighbor r c d with
  | none => simp
  | some rhs =>
    by_cases hv : rhs.value = t.value
    · simp only [hv, if_true]
      have := countFuel_nonneg b d fuel rhs.row rhs.column
      omega
    · simp only [hv, if_false]
      omega

/-- Every cell counted by `count_in_direction` holds the start cell's value:
cell `i` of the walk is at offset `i * step`. -/
theorem countFuel_sound {T : Type} [DecidableEq T] (b : Board T)
    (d : Direction) (hw : WF b) :
    ∀ fuel r c (t : Token T), b.get r c = some t →
      ∀ i : Nat, (i : Int) < countFuel b fuel r c d →
        ∃ t', b.get (r + i * d.step.1) (c + i * d.step.2) = some t' ∧
          t'.value = t.value := by
  intro fuel
  induction fuel with
  | zero =>
    intro r c t _ i hi
    simp [countFuel] at hi
    omega
  | succ n ih =>
    intro r c t ht i hi
    unfold countFuel at hi
    cases hn : b.get_neighbor r c d with
    | none =>
      simp only [ht, hn] at hi
      have : i = 0 := by omega
      subst this
      refine ⟨t, ?_, rfl⟩
      simpa using ht
    | some rhs =>
      by_cases hv : rhs.value = t.value
      · simp only [ht, hn, hv, if_true] at hi
        cases i with
        | zero =>
          refine ⟨t, ?_, rfl⟩
          simpa using ht
        | succ j =>
          rw [get_neighbor_eq_step] at hn
          have hco := WF_get_coords b _ _ rhs hw hn
          have hrhs : b.get rhs.row rhs.column = some rhs := by
            rw [hco.1, hco.2]; exact hn
          have hj : (j : Int) < countFuel b n rhs.row rhs.column d := by
            push_cast at hi ⊢
            omega
          obtain ⟨t', ht', hv'⟩ := ih rhs.row rhs.column rhs hrhs j hj
          refine ⟨t', ?_, by rw [hv', hv]⟩
          rw [hco.1, hco.2] at ht'
          have harg1 : r + d.step.1 + (j : Int) * d.step.1 =
              r + ((j : Nat) + 1 : Nat) * d.step.1 := by
            push_cast
            ring
          have harg2 : c + d.step.2 + (j : Int) * d.step.2 =
              c + ((j : Nat) + 1 : Nat) * d.step.2 := by
            push_cast
            ring
          rw [harg1, harg2] at ht'
          exact ht'
      · simp only [ht, hn, hv, if_false] at hi
        have : i = 0 := by omega
        subst this
        refine ⟨t, ?_, rfl⟩
        simpa using ht

/-- A run of `k + 1` equal cells starting at `(r, c)` forces a count of at
least `k + 1`, given enough fuel. -/
theorem countFuel_complete {T : Type} [DecidableEq T] (b : Board T)
    (d : Direction) (hw : WF b) (p : T) :
    ∀ k fuel r c, k < fuel →
      (∀ i : Nat, i ≤ k →
        ∃ t', b.get (r + i * d.step.1) (c + i * d.step.2) = some t' ∧
          t'.value = p) →
      (k : Int) + 1 ≤ countFuel b fuel r c d := by
  intro k
  induction k with
  | zero =>
    intro fuel r c hf hrun
    obtain ⟨t0, ht0, _⟩ := hrun 0 (Nat.le_refl 0)
    simp only [Nat.cast_zero, zero_mul, add_zero] at ht0
    obtain ⟨f, rfl⟩ := Nat.exists_eq_succ_of_ne_zero (Nat.pos_iff_ne_zero.mp hf)
    have h2 : 1 ≤ countFuel b (f + 1) r c d := countFuel_pos b d f r c t0 ht0
    have h3 : countFuel b (Nat.succ f) r c d = countFuel b (f + 1) r c d := rfl
    rw [h3]
    omega
  | succ j ih =>
    intro fuel r c hf hrun
    obtain ⟨f, rfl⟩ := Nat.exists_eq_succ_of_ne_zero
      (Nat.pos_iff_ne_zero.mp (Nat.lt_of_le_of_lt (Nat.zero_le _) hf))
    obtain ⟨t0, ht0, hv0⟩ := hrun 0 (Nat.zero_le _)
    simp only [Nat.cast_zero, zero_mul, add_zero] at ht0
    obtain ⟨t1, ht1, hv1⟩ := hrun 1 (by omega)
    simp only [Nat.cast_one, one_mul] at ht1
    unfold countFuel
    rw [ht0, get_neighbor_eq_step, ht1]
    have hco := WF_get_coords b _ _ t1 hw ht1
    have hveq : t1.value = t0.value := by rw [hv1, hv0]
    simp only [hveq, if_true]
    have hrec : (j : Int) + 1 ≤ countFuel b f t1.row t1.column d := by
      apply ih f t1.row t1.column (by omega)
      intro i hi
      obtain ⟨t', ht', hv'⟩ := hrun (i + 1) (by omega)
      refine ⟨t', ?_, hv'⟩
      rw [hco.1, hco.2]
      have harg1 : r + d.step.1 + (i : Int) * d.step.1 =
          r + ((i : Nat) + 1 : Nat) * d.step.1 := by push_cast; ring
      have harg2 : c + d.step.2 + (i : Int) * d.step.2 =
          c + ((i : Nat) + 1 : Nat) * d.step.2 := by push_cast; ring
      rw [harg1, harg2]
      exact ht'
    push_cast
    omega

/-- Two occupied cells `k` steps apart along a unit direction bound `k` by the
board dimensions; hence the fuel used by `count_in_direction` never runs out. -/
theorem run_bound {T : Type} (b : Board T) (dr dc : Int)
    (hstep : (dr = 1 ∨ dr = -1) ∨ (dr = 0 ∧ (dc = 1 ∨ dc = -1)))
    (k : Nat) (r c : Int) (t0 tk : Token T)
    (h0 : b.get r c = some t0)
    (hk : b.get (r + k * dr) (c + k * dc) = some tk) :
    k < b.width.toNat + b.height.toNat + 1 := by
  have hb0 := get_some_bounds b r c t0 h0
  have hbk := get_some_bounds b (r + k * dr) (c + k * dc) tk hk
  rcases hstep with h | ⟨h1, h2⟩
  · rcases h with h | h <;> subst h <;>
      (simp only [mul_one, mul_neg_one] at hbk; omega)
  · subst h1
    rcases h2 with h | h <;> subst h <;>
      (simp only [mul_one, mul_neg_one, mul_zero, add_zero] at hbk; omega)

end Board

/-! ### Lines through a cell: the spec's notion of a winning line -/

/-- `runFrom b p r0 c0 dr dc len`: `len` consecutive cells starting at
`(r0, c0)` and stepping by the unit offset `(dr, dc)` all hold player `p`. -/
def runFrom (b : Board Player) (p : Player) (r0 c0 dr dc : Int) (len : Nat) :
    Prop :=
  ∀ j : Nat, j < len →
    ∃ t, b.get (r0 + j * dr) (c0 + j * dc) = some t ∧ t.value = p

/-- The four line axes — vertical, both diagonals, horizontal — as unit
(row, column) offsets. -/
def lineAxes : List (Int × Int) := [(-1, 0), (-1, 1), (0, 1), (-1, -1)]

/-- The spec's win condition at a cell ("four or more consecutive tokens of
the moving player along a row, a column, or either diagonal"): some axis
carries a run of at least four consecutive `p` tokens containing `(r, c)`;
the run extends `a` cells one way and `b'` cells the other way from it. -/
def hasLineThrough (b : Board Player) (p : Player) (r c : Int) : Prop :=
  ∃ s ∈ lineAxes, ∃ a b' : Nat, 4 ≤ a + b' + 1 ∧
    runFrom b p (r - a * s.1) (c - a * s.2) s.1 s.2 (a + b' + 1)

theorem get_congr {T : Type} (b : Board T) (r c r' c' : Int)
    (h1 : r = r') (h2 : c = c') : b.get r c = b.get r' c' := by rw [h1, h2]

/-- A bidirectional count of at least four at an occupied cell is the same
thing as a four-long (or longer) run through the cell along that axis. -/
theorem bidirection_ge4_iff (b : Board Player) (d : Direction)
    (hw : Board.WF b) (r c : Int) (t : Token Player)
    (h : b.get r c = some t) :
    4 ≤ b.count_in_bidirection r c d ↔
      ∃ a b' : Nat, 4 ≤ a + b' + 1 ∧
        runFrom b t.value (r - a * d.step.1) (c - a * d.step.2)
          d.step.1 d.step.2 (a + b' + 1) := by
  have hF : b.width.toNat + b.height.toNat + 1 =
      (b.width.toNat + b.height.toNat) + 1 := rfl
  constructor
  · intro hge
    unfold Board.count_in_bidirection Board.count_in_direction at hge
    set F := b.width.toNat + b.height.toNat + 1 with hFdef
    have hn1 : 1 ≤ Board.countFuel b F r c d :=
      Board.countFuel_pos b d _ r c t h
    have hn2 : 1 ≤ Board.countFuel b F r c d.opp :=
      Board.countFuel_pos b d.opp _ r c t h
    set n1 := Board.countFuel b F r c d with hn1def
    set n2 := Board.countFuel b F r c d.opp with hn2def
    refine ⟨(n2 - 1).toNat, (n1 - 1).toNat, by omega, ?_⟩
    intro j hj
    by_cases hcase : ((n2 - 1).toNat : Int) ≤ (j : Int)
    · -- on the `d` side of the cell
      set m : Nat := j - (n2 - 1).toNat with hmdef
      have hm : (m : Int) = (j : Int) - (n2 - 1).toNat := by
        have : (n2 - 1).toNat ≤ j := by exact_mod_cast hcase
        omega
      have hmlt : (m : Int) < n1 := by omega
      obtain ⟨t', ht', hv⟩ := Board.countFuel_sound b d hw F r c t h m hmlt
      refine ⟨t', ?_, hv⟩
      have hXY : b.get (r - (n2 - 1).toNat * d.step.1 + j * d.step.1)
          (c - (n2 - 1).toNat * d.step.2 + j * d.step.2) =
          b.get (r + m * d.step.1) (c + m * d.step.2) :=
        get_congr b _ _ _ _ (by rw [hm]; ring) (by rw [hm]; ring)
      rw [hXY]
      exact ht'
    · -- on the `opp d` side of the cell
      push_neg at hcase
      set m : Nat := (n2 - 1).toNat - j with hmdef
      have hm : (m : Int) = ((n2 - 1).toNat : Int) - (j : Int) := by omega
      have hmlt : (m : Int) < n2 := by omega
      obtain ⟨t', ht', hv⟩ := Board.countFuel_sound b d.opp hw F r c t h m hmlt
      rw [Direction.opp_step d] at ht'
      refine ⟨t', ?_, hv⟩
      rw [get_congr b (r - (n2 - 1).toNat * d.step.1 + j * d.step.1)
        (c - (n2 - 1).toNat * d.step.2 + j * d.step.2)
        (r + m * (-d.step.1, -d.step.2).1) (c + m * (-d.step.1, -d.step.2).2)
        (by simp only; rw [hm]; ring) (by simp only; rw [hm]; ring)]
      exact ht'
  · rintro ⟨a, b', hlen, hrun⟩
    -- the run forces both directional counts
    have hshape := Direction.step_shape d
    have hstep1 : ∀ i : Nat, i ≤ b' →
        ∃ t', b.get (r + i * d.step.1) (c + i * d.step.2) = some t' ∧
          t'.value = t.value := by
      intro i hi
      obtain ⟨t', ht', hv⟩ := hrun (a + i) (by omega)
      refine ⟨t', ?_, hv⟩
      rw [get_congr b _ _ (r - a * d.step.1 + (a + i : Nat) * d.step.1)
        (c - a * d.step.2 + (a + i : Nat) * d.step.2)
        (by push_cast; ring) (by push_cast; ring)]
      exact ht'
    have hstep2 : ∀ i : Nat, i ≤ a →
        ∃ t', b.get (r + i * d.opp.step.1) (c + i * d.opp.step.2) = some t' ∧
          t'.value = t.value := by
      intro i hi
      obtain ⟨t', ht', hv⟩ := hrun (a - i) (by omega)
      refine ⟨t', ?_, hv⟩
      rw [Direction.opp_step d]
      rw [get_congr b _ _ (r - a * d.step.1 + (a - i : Nat) * d.step.1)
        (c - a * d.step.2 + (a - i : Nat) * d.step.2) ?_ ?_]
      · exact ht'
      · simp only
        have hcast : ((a - i : Nat) : Int) = (a : Int) - i := by omega
        rw [hcast]; ring
      · simp only
        have hcast : ((a - i : Nat) : Int) = (a : Int) - i := by omega
        rw [hcast]; ring
    have hb'F : b' < b.width.toNat + b.height.toNat + 1 := by
      obtain ⟨tk, htk, _⟩ := hstep1 b' (Nat.le_refl b')
      exact Board.run_bound b d.step.1 d.step.2 hshape b' r c t tk h htk
    have haF : a < b.width.toNat + b.height.toNat + 1 := by
      obtain ⟨tk, htk, _⟩ := hstep2 a (Nat.le_refl a)
      have hshape' := Direction.step_shape d.opp
      exact Board.run_bound b d.opp.step.1 d.opp.step.2 hshape' a r c t tk h htk
    have hc1 : (b' : Int) + 1 ≤
        Board.countFuel b (b.width.toNat + b.height.toNat + 1) r c d :=
      Board.countFuel_complete b d hw t.value b' _ r c hb'F hstep1
    have hc2 : (a : Int) + 1 ≤
        Board.countFuel b (b.width.toNat + b.height.toNat + 1) r c d.opp :=
      Board.countFuel_complete b d.opp hw t.value a _ r c haF hstep2
    unfold Board.count_in_bidirection Board.count_in_direction
    omega

/-! ### Structural lemmas about `emplace` -/

namespace ConnectFour2p

theorem placeResult_turn (g : ConnectFour2p) (column row : Int) :
    (g.placeResult column row).turn = g.turn.toggle := by
  simp only [placeResult]
  split
  · rfl
  · split <;> rfl

theorem placeResult_board (g : ConnectFour2p) (column row : Int) :
    (g.placeResult column row).board = g.board.set row column g.turn := by
  simp only [placeResult]
  split
  · rfl
  · split <;> rfl

theorem placeResult_last (g : ConnectFour2p) (column row : Int) :
    (g.placeResult column row).last_pos_r = row ∧
      (g.placeResult column row).last_pos_c = column := by
  simp only [placeResult]
  split
  · exact ⟨rfl, rfl⟩
  · split <;> exact ⟨rfl, rfl⟩

theorem placeResult_state_won (g : ConnectFour2p) (column row : Int)
    (p : Player) (hw : (placedInterim g column row).get_winner = some p) :
    (g.placeResult column row).state = GameStatus.Won p := by
  simp only [placeResult, hw]

theorem placeResult_state_draw (g : ConnectFour2p) (column row : Int)
    (hw : (placedInterim g column row).get_winner = none)
    (hf : ((placedInterim g column row).board.data.length : Int) =
      (placedInterim g column row).board.width *
        (placedInterim g column row).board.height) :
    (g.placeResult column row).state = GameStatus.Closed := by
  simp only [placeResult, hw]
  rw [if_pos hf]

theorem placeResult_state_continue (g : ConnectFour2p) (column row : Int)
    (hw : (placedInterim g column row).get_winner = none)
    (hf : ¬((placedInterim g column row).board.data.length : Int) =
      (placedInterim g column row).board.width *
        (placedInterim g column row).board.height) :
    (g.placeResult column row).state = g.state := by
  simp only [placeResult, hw]
  rw [if_neg hf]
  rfl

theorem emplace_invalid (g : ConnectFour2p) (c : Int)
    (h : ¬(g.state = GameStatus.Playing ∧ 0 ≤ c ∧ c < g.board.width)) :
    g.emplace c = (g, false) := by
  unfold emplace
  rw [if_neg h]

theorem emplaceScan_all_full (g : ConnectFour2p) (c : Int) :
    ∀ rows : List Int, (∀ r ∈ rows, (g.board.get r c).isSome) →
      emplaceScan g c rows = (g, false) := by
  intro rows
  induction rows with
  | nil => intro _; rfl
  | cons row rest ih =>
    intro hall
    unfold emplaceScan
    have hfalse : (g.board.get row c).isNone = false := by
      cases hg : g.board.get row c with
      | none =>
        have := hall row (List.mem_cons_self row rest)
        rw [hg] at this
        simp at this
      | some t => rfl
    rw [hfalse]
    simp only [Bool.false_eq_true, if_false]
    exact ih (fun r hr => hall r (List.mem_cons_of_mem row hr))

theorem emplaceScan_false_eq (g : ConnectFour2p) (c : Int) :
    ∀ rows g', emplaceScan g c rows = (g', false) → g' = g := by
  intro rows
  induction rows with
  | nil =>
    intro g' h
    exact (Prod.mk.injEq _ _ _ _ ▸ h).1.symm
  | cons row rest ih =>
    intro g' h
    unfold emplaceScan at h
    by_cases hn : (g.board.get row c).isNone
    · rw [hn] at h
      simp at h
    · simp only [Bool.not_eq_true] at hn
      rw [hn] at h
      simp only [Bool.false_eq_true, if_false] at h
      exact ih g' h

/-- A failed `emplace` leaves the engine untouched. -/
theorem emplace_false_eq (g : ConnectFour2p) (c : Int)
    (h : (g.emplace c).2 = false) : (g.emplace c).1 = g := by
  unfold emplace at h ⊢
  by_cases hv : g.state = GameStatus.Playing ∧ 0 ≤ c ∧ c < g.board.width
  · rw [if_pos hv] at h ⊢
    rcases hscan : emplaceScan g c (rowList g.board.height) with ⟨g', bb⟩
    rw [hscan] at h
    simp only at h
    subst h
    show g' = g
    exact emplaceScan_false_eq g c _ g' hscan
  · rw [if_neg hv]

/-- The rows `n-1, ..., 1, 0` as a recursively defined list. -/
def rseq : Nat → List Int
  | 0 => []
  | n + 1 => (n : Int) :: rseq n

theorem rowList_eq_rseq (h : Int) : rowList h = rseq h.toNat := by
  unfold rowList
  generalize h.toNat = n
  induction n with
  | zero => rfl
  | succ m ih =>
    rw [List.range_succ, List.reverse_append]
    simp only [List.reverse_cons, List.reverse_nil, List.nil_append,
      List.cons_append, List.map_cons]
    rw [ih]
    rfl

theorem emplaceScan_rseq_true (g : ConnectFour2p) (c : Int) :
    ∀ n g', emplaceScan g c (rseq n) = (g', true) →
      (∀ r : Int, (n : Int) ≤ r → r < g.board.height →
        (g.board.get r c).isSome) →
      ∃ rp : Int, 0 ≤ rp ∧ rp < (n : Int) ∧ g.board.get rp c = none ∧
        (∀ r : Int, rp < r → r < g.board.height →
          (g.board.get r c).isSome) ∧
        g' = g.placeResult c rp := by
  intro n
  induction n with
  | zero =>
    intro g' h _
    simp [rseq, emplaceScan] at h
  | succ m ih =>
    intro g' h habove
    unfold rseq emplaceScan at h
    by_cases hn : (g.board.get (m : Int) c).isNone
    · rw [hn] at h
      simp only [if_true] at h
      refine ⟨(m : Int), by positivity, by push_cast; omega,
        Option.isNone_iff_eq_none.mp hn, ?_, ?_⟩
      · intro r hr hrh
        apply habove r (by push_cast; omega) hrh
      · exact ((Prod.mk.injEq _ _ _ _ ▸ h).1).symm
    · simp only [Bool.not_eq_true] at hn
      rw [hn] at h
      simp only [Bool.false_eq_true, if_false] at h
      have hext : ∀ r : Int, (m : Int) ≤ r → r < g.board.height →
          (g.board.get r c).isSome := by
        intro r hr hrh
        by_cases hrm : r = (m : Int)
        · subst hrm
          cases hg : g.board.get (m : Int) c with
          | none => rw [hg] at hn; simp at hn
          | some t => simp
        · exact habove r (by push_cast at hr ⊢; omega) hrh
      obtain ⟨rp, h0, h1, h2, h3, h4⟩ := ih g' h hext
      exact ⟨rp, h0, by push_cast at h1 ⊢; omega, h2, h3, h4⟩

/-- Characterization of a successful `emplace`: the pre-state was `Playing`,
the column in range, and the token went to the lowest empty row. -/
theorem emplace_true_spec (g : ConnectFour2p) (c : Int) (g' : ConnectFour2p)
    (h : g.emplace c = (g', true)) :
    g.state = GameStatus.Playing ∧ 0 ≤ c ∧ c < g.board.width ∧
      ∃ rp : Int, 0 ≤ rp ∧ rp < g.board.height ∧ g.board.get rp c = none ∧
        (∀ r : Int, rp < r → r < g.board.height →
          (g.board.get r c).isSome) ∧
        g' = g.placeResult c rp := by
  unfold emplace at h
  by_cases hv : g.state = GameStatus.Playing ∧ 0 ≤ c ∧ c < g.board.width
  · rw [if_pos hv] at h
    rw [rowList_eq_rseq] at h
    obtain ⟨rp, h0, h1, h2, h3, h4⟩ := emplaceScan_rseq_true g c _ g' h
      (by intro r hr hrh; exfalso; omega)
    exact ⟨hv.1, hv.2.1, hv.2.2, rp, h0, by omega, h2, h3, h4⟩
  · rw [if_neg hv] at h
    simp at h
end ConnectFour2p

/-! ### `get_winner` as a function of the status and the line maximum -/

namespace ConnectFour2p

/-- The maximum the win check takes over the four axis counts at the last
move. -/
def lineMax (g : ConnectFour2p) : Int :=
  Max.max (Max.max (Max.max
    (g.board.count_in_bidirection g.last_pos_r g.last_pos_c Direction.North)
    (g.board.count_in_bidirection g.last_pos_r g.last_pos_c
      Direction.NorthEast))
    (g.board.count_in_bidirection g.last_pos_r g.last_pos_c Direction.East))
    (g.board.count_in_bidirection g.last_pos_r g.last_pos_c
      Direction.NorthWest)

theorem get_winner_won (g : ConnectFour2p) (p : Player)
    (h : g.state = GameStatus.Won p) : g.get_winner = some p := by
  unfold get_winner
  rw [h]

theorem get_winner_of_ne_won (g : ConnectFour2p)
    (h : ∀ p, g.state ≠ GameStatus.Won p) :
    g.get_winner = if 4 ≤ lineMax g then some g.turn else none := by
  unfold get_winner lineMax
  cases hs : g.state with
  | Won p => exact absurd hs (h p)
  | Playing => rfl
  | Closed => rfl

theorem lineMax_ge4_iff_hasLine (g : ConnectFour2p) (hw : Board.WF g.board)
    (t : Token Player)
    (h : g.board.get g.last_pos_r g.last_pos_c = some t) :
    4 ≤ lineMax g ↔
      hasLineThrough g.board t.value g.last_pos_r g.last_pos_c := by
  unfold lineMax
  constructor
  · intro h4
    simp only [le_max_iff] at h4
    rcases h4 with ((hN | hNE) | hE) | hNW
    · exact ⟨Direction.North.step, by decide,
        (bidirection_ge4_iff g.board Direction.North hw _ _ t h).mp hN⟩
    · exact ⟨Direction.NorthEast.step, by decide,
        (bidirection_ge4_iff g.board Direction.NorthEast hw _ _ t h).mp hNE⟩
    · exact ⟨Direction.East.step, by decide,
        (bidirection_ge4_iff g.board Direction.East hw _ _ t h).mp hE⟩
    · exact ⟨Direction.NorthWest.step, by decide,
        (bidirection_ge4_iff g.board Direction.NorthWest hw _ _ t h).mp hNW⟩
  · rintro ⟨s, hsmem, a, b', hlen, hrun⟩
    simp only [lineAxes, List.mem_cons, List.mem_singleton,
      List.not_mem_nil] at hsmem
    simp only [le_max_iff]
    rcases hsmem with hs | hs | hs | hs | hs
    · subst hs
      exact Or.inl (Or.inl (Or.inl
        ((bidirection_ge4_iff g.board Direction.North hw _ _ t h).mpr
          ⟨a, b', hlen, hrun⟩)))
    · subst hs
      exact Or.inl (Or.inl (Or.inr
        ((bidirection_ge4_iff g.board Direction.NorthEast hw _ _ t h).mpr
          ⟨a, b', hlen, hrun⟩)))
    · subst hs
      exact Or.inl (Or.inr
        ((bidirection_ge4_iff g.board Direction.East hw _ _ t h).mpr
          ⟨a, b', hlen, hrun⟩))
    · subst hs
      exact Or.inr
        ((bidirection_ge4_iff g.board Direction.NorthWest hw _ _ t h).mpr
          ⟨a, b', hlen, hrun⟩)
    · exact absurd hs (by simp)

end ConnectFour2p

/-! ### Token counts -/

/-- Number of red tokens stored on the board. -/
def redCount (b : Board Player) : Nat :=
  b.data.countP (fun e => decide (e.2.value = Player.Red))

/-- Number of blue tokens stored on the board. -/
def blueCount (b : Board Player) : Nat :=
  b.data.countP (fun e => decide (e.2.value = Player.Blue))

theorem get_none_hmGet (b : Board Player) (r c : Int)
    (hr : 0 ≤ r ∧ r < b.height) (hc : 0 ≤ c ∧ c < b.width)
    (hnone : b.get r c = none) :
    hmGet b.data (b.rc_to_index r c) = none := by
  unfold Board.get at hnone
  rwa [if_pos ⟨hr.1, hr.2, hc⟩] at hnone

theorem counts_set_fresh (b : Board Player) (r c : Int) (v : Player)
    (hr : 0 ≤ r ∧ r < b.height) (hc : 0 ≤ c ∧ c < b.width)
    (hnone : b.get r c = none) :
    redCount (b.set r c v) =
        redCount b + (if v = Player.Red then 1 else 0) ∧
      blueCount (b.set r c v) =
        blueCount b + (if v = Player.Blue then 1 else 0) := by
  have hget := get_none_hmGet b r c hr hc hnone
  have hfil := hm_filter_of_absent b.data _ hget
  unfold redCount blueCount Board.set hmInsert
  simp only [hfil, List.countP_cons]
  constructor <;> simp

theorem countFuel_of_none {T : Type} [DecidableEq T] (b : Board T)
    (d : Direction) (fuel : Nat) (r c : Int) (h : b.get r c = none) :
    Board.countFuel b fuel r c d = 0 := by
  cases fuel with
  | zero => rfl
  | succ n =>
    unfold Board.countFuel
    rw [h]

namespace ConnectFour2p

theorem lineMax_congr (g₁ g₂ : ConnectFour2p) (hb : g₁.board = g₂.board)
    (hr : g₁.last_pos_r = g₂.last_pos_r)
    (hc : g₁.last_pos_c = g₂.last_pos_c) : lineMax g₁ = lineMax g₂ := by
  unfold lineMax
  rw [hb, hr, hc]

/-- Invariant carried by every reachable engine state. -/
structure Inv (g : ConnectFour2p) : Prop where
  wf : Board.WF g.board
  packed : ∀ c r : Int, 0 ≤ r → r + 1 < g.board.height →
    (g.board.get r c).isSome → (g.board.get (r + 1) c).isSome
  balance : (g.turn = Player.Red → redCount g.board = blueCount g.board) ∧
    (g.turn = Player.Blue → redCount g.board = blueCount g.board + 1)
  nostale : g.state = GameStatus.Playing → lineMax g < 4

theorem get_new_none (T : Type) (w h r c : Int) :
    (Board.new T w h).get r c = none := by
  unfold Board.get Board.new hmGet
  split <;> rfl

theorem Inv_new (w h : Int) : Inv (ConnectFour2p.new w h) := by
  constructor
  · exact Board.WF_new Player w h
  · intro c r _ _ hs
    rw [show (ConnectFour2p.new w h).board = Board.new Player w h from rfl,
      get_new_none] at hs
    simp at hs
  · constructor
    · intro _; rfl
    · intro hb
      exact absurd hb (by simp [ConnectFour2p.new])
  · intro _
    unfold lineMax
    have hz : ∀ d : Direction,
        (ConnectFour2p.new w h).board.count_in_bidirection 0 0 d = -1 := by
      intro d
      unfold Board.count_in_bidirection Board.count_in_direction
      have hbd : (ConnectFour2p.new w h).board = Board.new Player w h := rfl
      rw [hbd, countFuel_of_none _ _ _ _ _ (get_new_none Player w h 0 0),
        countFuel_of_none _ _ _ _ _ (get_new_none Player w h 0 0)]
      decide
    show Max.max (Max.max (Max.max
      ((ConnectFour2p.new w h).board.count_in_bidirection 0 0 Direction.North)
      ((ConnectFour2p.new w h).board.count_in_bidirection 0 0
        Direction.NorthEast))
      ((ConnectFour2p.new w h).board.count_in_bidirection 0 0 Direction.East))
      ((ConnectFour2p.new w h).board.count_in_bidirection 0 0
        Direction.NorthWest) < 4
    rw [hz, hz, hz, hz]
    decide

theorem Inv_close (g : ConnectFour2p) (h : Inv g) : Inv g.close := by
  constructor
  · exact h.wf
  · exact h.packed
  · exact h.balance
  · intro hp
    exact absurd hp (by simp [close])

end ConnectFour2p

namespace ConnectFour2p

theorem lineMax_placeResult (g : ConnectFour2p) (c rp : Int) :
    lineMax (g.placeResult c rp) = lineMax (placedInterim g c rp) := by
  apply lineMax_congr
  · rw [placeResult_board]; rfl
  · rw [(placeResult_last g c rp).1]; rfl
  · rw [(placeResult_last g c rp).2]; rfl

theorem lineMax_lt_of_winner_none (g : ConnectFour2p)
    (hne : ∀ p, g.state ≠ GameStatus.Won p)
    (hw : g.get_winner = none) : lineMax g < 4 := by
  rw [get_winner_of_ne_won g hne] at hw
  by_cases h4 : 4 ≤ lineMax g
  · rw [if_pos h4] at hw
    exact Option.noConfusion hw
  · omega

theorem placedInterim_state (g : ConnectFour2p) (c rp : Int) :
    (placedInterim g c rp).state = g.state := rfl

theorem Inv_placeResult (g : ConnectFour2p) (c rp : Int) (hInv : Inv g)
    (hplay : g.state = GameStatus.Playing)
    (hc : 0 ≤ c ∧ c < g.board.width)
    (hrp : 0 ≤ rp ∧ rp < g.board.height)
    (hnone : g.board.get rp c = none)
    (habove : ∀ r, rp < r → r < g.board.height →
      (g.board.get r c).isSome) :
    Inv (g.placeResult c rp) := by
  have hboard := placeResult_board g c rp
  constructor
  · rw [hboard]
    exact Board.WF_set g.board rp c g.turn hInv.wf hrp hc
  · intro c' r h0 h1 hs
    rw [hboard] at h1 hs ⊢
    rw [Board.height_set] at h1
    by_cases hcell : r = rp ∧ c' = c
    · obtain ⟨hr, hc'⟩ := hcell
      rw [hr] at h1 ⊢
      rw [hc']
      rw [Board.get_set_ne g.board rp c (rp + 1) c g.turn hc
        (by intro hcl; omega)]
      exact habove (rp + 1) (by omega) h1
    · rw [Board.get_set_ne g.board rp c r c' g.turn hc hcell] at hs
      have hpre := hInv.packed c' r h0 h1 hs
      by_cases hcell2 : r + 1 = rp ∧ c' = c
      · exfalso
        rw [hcell2.1, hcell2.2, hnone] at hpre
        simp at hpre
      · rw [Board.get_set_ne g.board rp c (r + 1) c' g.turn hc hcell2]
        exact hpre
  · have hcounts := counts_set_fresh g.board rp c g.turn hrp hc hnone
    have hturn := placeResult_turn g c rp
    rw [hboard]
    constructor
    · intro hred
      rw [hturn] at hred
      cases ht : g.turn with
      | Red =>
        rw [ht] at hred
        exact absurd hred (by simp [Player.toggle])
      | Blue =>
        rw [ht] at hcounts
        have := hInv.balance.2 ht
        simp at hcounts
        omega
    · intro hblue
      rw [hturn] at hblue
      cases ht : g.turn with
      | Red =>
        rw [ht] at hcounts
        have := hInv.balance.1 ht
        simp at hcounts
        omega
      | Blue =>
        rw [ht] at hblue
        exact absurd hblue (by simp [Player.toggle])
  · intro hp
    cases hwin : (placedInterim g c rp).get_winner with
    | some p =>
      rw [placeResult_state_won g c rp p hwin] at hp
      exact absurd hp (by simp)
    | none =>
      rw [lineMax_placeResult]
      apply lineMax_lt_of_winner_none
      · intro p
        rw [placedInterim_state, hplay]
        simp
      · exact hwin

/-- Every reachable state satisfies the invariant. -/
theorem Inv_reachable (g : ConnectFour2p) (h : Reachable g) : Inv g := by
  induction h with
  | new w h => exact Inv_new w h
  | emplace g c _ ih =>
    cases hbb : (g.emplace c).2 with
    | false =>
      rw [emplace_false_eq g c hbb]
      exact ih
    | true =>
      have hpair : g.emplace c = ((g.emplace c).1, true) := by
        rw [← hbb]
      obtain ⟨hplay, hc0, hcw, rp, h0, h1, h2, h3, h4⟩ :=
        emplace_true_spec g c _ hpair
      rw [h4]
      exact Inv_placeResult g c rp ih hplay ⟨hc0, hcw⟩ ⟨h0, h1⟩ h2 h3
  | close g _ ih => exact Inv_close g ih

/-- When `close` is never invoked on a `Won` state, every non-`Won` reachable
state has all four axis counts below four at the last move. -/
theorem lineMax_lt_of_no_close_on_won (g : ConnectFour2p)
    (h : ReachableNoCloseOnWon g) :
    (∀ p, g.state ≠ GameStatus.Won p) → lineMax g < 4 := by
  induction h with
  | new w h =>
    intro _
    exact (Inv_new w h).nostale rfl
  | emplace g c _ ih =>
    intro hne
    cases hbb : (g.emplace c).2 with
    | false =>
      rw [emplace_false_eq g c hbb] at hne ⊢
      exact ih hne
    | true =>
      have hpair : g.emplace c = ((g.emplace c).1, true) := by
        rw [← hbb]
      obtain ⟨hplay, hc0, hcw, rp, h0, h1, h2, h3, h4⟩ :=
        emplace_true_spec g c _ hpair
      rw [h4] at hne ⊢
      cases hwin : (placedInterim g c rp).get_winner with
      | some p =>
        exfalso
        exact hne p (placeResult_state_won g c rp p hwin)
      | none =>
        rw [lineMax_placeResult]
        apply lineMax_lt_of_winner_none
        · intro p
          rw [placedInterim_state, hplay]
          simp
        · exact hwin
  | close g _ hne ih =>
    intro _
    have : lineMax g.close = lineMax g := lineMax_congr _ _ rfl rfl rfl
    rw [this]
    exact ih hne

end ConnectFour2p

/-! ### Column occupancy counts (for the gravity property) -/

/-- Number of occupied cells in column `c`. -/
def colCount (b : Board Player) (c : Int) : Nat :=
  ((List.range b.height.toNat).map Int.ofNat).countP
    (fun r => (b.get r c).isSome)

theorem countP_range_ge (p : Nat → Bool) :
    ∀ n m : Nat, m ≤ n → (∀ j, j < n → (p j = true ↔ m ≤ j)) →
      (List.range n).countP p = n - m := by
  intro n
  induction n with
  | zero =>
    intro m hm _
    interval_cases m
    rfl
  | succ k ih =>
    intro m hm hp
    rw [List.range_succ, List.countP_append]
    by_cases hmk : m ≤ k
    · rw [ih m hmk (fun j hj => hp j (by omega))]
      have hpk : p k = true := (hp k (by omega)).mpr hmk
      simp [hpk]
      omega
    · have hmeq : m = k + 1 := by omega
      subst hmeq
      have h0 : (List.range k).countP p = 0 := by
        rw [List.countP_eq_zero]
        intro a ha hpa
        rw [List.mem_range] at ha
        have := (hp a (by omega)).mp hpa
        omega
      have hpk : p k = false := by
        cases hpk : p k with
        | false => rfl
        | true =>
          have := (hp k (by omega)).mp hpk
          omega
      rw [h0]
      simp [hpk]

namespace ConnectFour2p

/-- Climbing a bottom-packed column: an occupied cell has every lower cell of
its column occupied. -/
theorem packed_up (g : ConnectFour2p)
    (hpk : ∀ c r : Int, 0 ≤ r → r + 1 < g.board.height →
      (g.board.get r c).isSome → (g.board.get (r + 1) c).isSome) :
    ∀ k : Nat, ∀ r c : Int, 0 ≤ r → r + k < g.board.height →
      (g.board.get r c).isSome → (g.board.get (r + k) c).isSome := by
  intro k
  induction k with
  | zero =>
    intro r c _ _ hs
    simpa using hs
  | succ j ih =>
    intro r c h0 hk hs
    have h1 : (g.board.get (r + 1) c).isSome :=
      hpk c r h0 (by push_cast at hk; omega) hs
    have := ih (r + 1) c (by omega) (by push_cast at hk ⊢; omega) h1
    have harg : r + 1 + (j : Int) = r + ((j : Nat) + 1 : Nat) := by
      push_cast
      ring
    rwa [harg] at this

/-- In a reachable state, if the lowest empty cell of column `c` is `rp`,
then column `c` holds exactly `height - 1 - rp` tokens. -/
theorem colCount_of_lowest_empty (g : ConnectFour2p) (hInv : Inv g)
    (c rp : Int) (hrp : 0 ≤ rp ∧ rp < g.board.height)
    (hnone : g.board.get rp c = none)
    (habove : ∀ r, rp < r → r < g.board.height →
      (g.board.get r c).isSome) :
    (colCount g.board c : Int) = g.board.height - 1 - rp := by
  have hocc : ∀ r : Int, 0 ≤ r → r < g.board.height →
      ((g.board.get r c).isSome ↔ rp + 1 ≤ r) := by
    intro r h0 hh
    constructor
    · intro hs
      by_contra hle
      have hrle : r ≤ rp := by omega
      have := packed_up g hInv.packed (rp - r).toNat r c h0
        (by omega) hs
      rw [show r + ((rp - r).toNat : Int) = rp by omega] at this
      rw [hnone] at this
      simp at this
    · intro hlt
      exact habove r (by omega) hh
  unfold colCount
  rw [List.countP_map]
  rw [countP_range_ge _ _ (rp.toNat + 1) (by omega) ?_]
  · omega
  · intro j hj
    have hcast : Int.ofNat j = (j : Int) := rfl
    have hj2 : (j : Int) < g.board.height := by omega
    have hjj := hocc (j : Int) (by omega) hj2
    simp only [Function.comp, hcast]
    rw [hjj]
    omega

theorem colCount_eq_of_iff (b : Board Player) (c : Int) (m : Nat)
    (hocc : ∀ r : Int, 0 ≤ r → r < b.height →
      ((b.get r c).isSome ↔ (m : Int) ≤ r))
    (hm : m ≤ b.height.toNat) :
    colCount b c = b.height.toNat - m := by
  unfold colCount
  rw [List.countP_map]
  rw [countP_range_ge _ _ m hm ?_]
  intro j hj
  have hcast : Int.ofNat j = (j : Int) := rfl
  have hjj := hocc (j : Int) (by omega) (by omega)
  simp only [Function.comp, hcast]
  rw [hjj]
  omega

/-- In a reachable state: a column cell is occupied exactly when it lies
strictly below the lowest empty cell. -/
theorem occupied_iff_above (g : ConnectFour2p) (hInv : Inv g) (c rp : Int)
    (hrp : 0 ≤ rp ∧ rp < g.board.height)
    (hnone : g.board.get rp c = none)
    (habove : ∀ r, rp < r → r < g.board.height →
      (g.board.get r c).isSome) :
    ∀ r : Int, 0 ≤ r → r < g.board.height →
      ((g.board.get r c).isSome ↔ rp + 1 ≤ r) := by
  intro r h0 hh
  constructor
  · intro hs
    by_contra hle
    have := packed_up g hInv.packed (rp - r).toNat r c h0 (by omega) hs
    rw [show r + ((rp - r).toNat : Int) = rp by omega] at this
    rw [hnone] at this
    simp at this
  · intro hlt
    exact habove r (by omega) hh

theorem colCount_after_place (g : ConnectFour2p) (hInv : Inv g) (c rp : Int)
    (hc : 0 ≤ c ∧ c < g.board.width)
    (hrp : 0 ≤ rp ∧ rp < g.board.height)
    (hnone : g.board.get rp c = none)
    (habove : ∀ r, rp < r → r < g.board.height →
      (g.board.get r c).isSome) :
    (colCount (g.board.set rp c g.turn) c : Int) =
      (colCount g.board c : Int) + 1 := by
  have hpre := occupied_iff_above g hInv c rp hrp hnone habove
  have hpreCount := colCount_of_lowest_empty g hInv c rp hrp hnone habove
  have hpost : colCount (g.board.set rp c g.turn) c =
      (g.board.set rp c g.turn).height.toNat - rp.toNat := by
    apply colCount_eq_of_iff
    · intro r h0 hh
      rw [Board.height_set] at hh
      by_cases hr : r = rp
      · subst hr
        rw [Board.get_set_self g.board r c g.turn ⟨h0, hh⟩ hc]
        simp
        omega
      · rw [Board.get_set_ne g.board rp c r c g.turn hc
          (by intro hx; exact hr hx.1)]
        rw [hpre r h0 hh]
        omega
    · rw [Board.height_set]
      omega
  rw [hpost, Board.height_set]
  omega

theorem colCount_set_other (b : Board Player) (rp c : Int) (v : Player)
    (c' : Int) (hcol : c' ≠ c) (hc : 0 ≤ c ∧ c < b.width) :
    colCount (b.set rp c v) c' = colCount b c' := by
  unfold colCount
  rw [Board.height_set]
  apply List.countP_congr
  intro r _
  rw [Board.get_set_ne b rp c r c' v hc (by intro hx; exact hcol hx.2)]

theorem rseq_mem : ∀ (n : Nat) (r : Int), r ∈ rseq n → 0 ≤ r ∧ r < (n : Int) := by
  intro n
  induction n with
  | zero =>
    intro r hr
    simp [rseq] at hr
  | succ k ih =>
    intro r hr
    rw [rseq, List.mem_cons] at hr
    rcases hr with hr | hr
    · subst hr
      constructor
      · positivity
      · push_cast
        omega
    · have := ih r hr
      push_cast at this ⊢
      omega

theorem Reachable_playSeq (g : ConnectFour2p) (cs : List Int)
    (h : Reachable g) : Reachable (playSeq g cs) := by
  induction cs generalizing g with
  | nil => simpa [playSeq] using h
  | cons c cs ih =>
    have : playSeq g (c :: cs) = playSeq (g.emplace c).1 cs := rfl
    rw [this]
    exact ih _ (Reachable.emplace g c h)

end ConnectFour2p

/-! ### Core win-detection property of a successful `emplace` -/

namespace ConnectFour2p

/-- Shared core: a successful `emplace` from a reachable `Playing` state sets
`Won{mover}` exactly when the placed cell lies on a four-or-longer line of the
mover, and then `get_winner` reports the mover. -/
theorem emplace_win_core (g : ConnectFour2p) (c : Int) (g' : ConnectFour2p)
    (hreach : Reachable g) (hplay : g.state = GameStatus.Playing)
    (h : g.emplace c = (g', true)) :
    (hasLineThrough g'.board g.turn g'.last_pos_r g'.last_pos_c →
      g'.state = GameStatus.Won g.turn ∧ g'.get_winner = some g.turn) ∧
    (¬hasLineThrough g'.board g.turn g'.last_pos_r g'.last_pos_c →
      ∀ p : Player, g'.state ≠ GameStatus.Won p) := by
  have hInv := Inv_reachable g hreach
  obtain ⟨_, hc0, hcw, rp, h0, h1, h2, h3, h4⟩ := emplace_true_spec g c g' h
  subst h4
  have hboard := placeResult_board g c rp
  have hlast := placeResult_last g c rp
  have hwfi : Board.WF (placedInterim g c rp).board :=
    Board.WF_set g.board rp c g.turn hInv.wf ⟨h0, h1⟩ ⟨hc0, hcw⟩
  have htok : (placedInterim g c rp).board.get rp c = some ⟨rp, c, g.turn⟩ :=
    Board.get_set_self g.board rp c g.turn ⟨h0, h1⟩ ⟨hc0, hcw⟩
  have hne : ∀ p, (placedInterim g c rp).state ≠ GameStatus.Won p := by
    intro p
    rw [placedInterim_state, hplay]
    simp
  have hgw := get_winner_of_ne_won (placedInterim g c rp) hne
  have hiff : 4 ≤ lineMax (placedInterim g c rp) ↔
      hasLineThrough (placedInterim g c rp).board g.turn rp c := by
    exact lineMax_ge4_iff_hasLine (placedInterim g c rp) hwfi
      ⟨rp, c, g.turn⟩ htok
  rw [hlast.1, hlast.2, hboard]
  constructor
  · intro hline
    have h4i : 4 ≤ lineMax (placedInterim g c rp) := hiff.mpr hline
    have hwin : (placedInterim g c rp).get_winner = some g.turn := by
      rw [hgw, if_pos h4i]
      rfl
    have hstate := placeResult_state_won g c rp g.turn hwin
    exact ⟨hstate, get_winner_won _ g.turn hstate⟩
  · intro hline p
    have h4i : ¬4 ≤ lineMax (placedInterim g c rp) := fun hx =>
      hline (hiff.mp hx)
    have hwin : (placedInterim g c rp).get_winner = none := by
      rw [hgw, if_neg h4i]
    by_cases hfull : ((placedInterim g c rp).board.data.length : Int) =
        (placedInterim g c rp).board.width * (placedInterim g c rp).board.height
    · rw [placeResult_state_draw g c rp hwin hfull]
      simp
    · rw [placeResult_state_continue g c rp hwin hfull, hplay]
      simp

end ConnectFour2p

/-! ### The claims -/

namespace ConnectFour2p

/-- C1: from a reachable `Playing` state, a successful `emplace` whose placed
cell completes a line of four or more consecutive tokens of the moving player
along a row, a column, or either diagonal sets `status = Won{mover}` (the
pre-call turn, not the toggled one) and makes `get_winner()` return the mover;
if no axis through the placed cell reaches four, the status does not become
`Won`. -/
theorem c1_win_detection (g : ConnectFour2p) (c : Int) (g' : ConnectFour2p)
    (hreach : Reachable g) (hplay : g.state = GameStatus.Playing)
    (h : g.emplace c = (g', true)) :
    (hasLineThrough g'.board g.turn g'.last_pos_r g'.last_pos_c →
      g'.state = GameStatus.Won g.turn ∧ g'.get_winner = some g.turn) ∧
    (¬hasLineThrough g'.board g.turn g'.last_pos_r g'.last_pos_c →
      ∀ p : Player, g'.state ≠ GameStatus.Won p) :=
  emplace_win_core g c g' hreach hplay h

/-- C1 witness: on a 4×4 board, the seventh move completes a red column and
the engine reports `Won{Red}`. -/
theorem c1_witness :
    (playSeq (ConnectFour2p.new 4 4) [0, 1, 0, 1, 0, 1, 0]).state =
      GameStatus.Won Player.Red ∧
    (playSeq (ConnectFour2p.new 4 4) [0, 1, 0, 1, 0, 1, 0]).get_winner =
      some Player.Red := by
  have h : (playSeq (ConnectFour2p.new 4 4) [0, 1, 0, 1, 0, 1]).emplace 0 =
      (playSeq (ConnectFour2p.new 4 4) [0, 1, 0, 1, 0, 1, 0], true) := by
    decide
  have hline : hasLineThrough
      (playSeq (ConnectFour2p.new 4 4) [0, 1, 0, 1, 0, 1, 0]).board
      (playSeq (ConnectFour2p.new 4 4) [0, 1, 0, 1, 0, 1]).turn
      (playSeq (ConnectFour2p.new 4 4) [0, 1, 0, 1, 0, 1, 0]).last_pos_r
      (playSeq (ConnectFour2p.new 4 4) [0, 1, 0, 1, 0, 1, 0]).last_pos_c := by
    refine ⟨(-1, 0), by decide, 3, 0, by decide, ?_⟩
    intro j hj
    interval_cases j
    · exact ⟨⟨3, 0, Player.Red⟩, by decide, rfl⟩
    · exact ⟨⟨2, 0, Player.Red⟩, by decide, rfl⟩
    · exact ⟨⟨1, 0, Player.Red⟩, by decide, rfl⟩
    · exact ⟨⟨0, 0, Player.Red⟩, by decide, rfl⟩
  have hmain := (c1_win_detection _ 0 _
    (Reachable_playSeq _ _ (Reachable.new 4 4)) (by decide) h).1 hline
  have hturn : (playSeq (ConnectFour2p.new 4 4) [0, 1, 0, 1, 0, 1]).turn =
      Player.Red := by decide
  rw [hturn] at hmain
  exact hmain

/-- C2: a successful `emplace` from a reachable state drops the token into the
lowest empty row of the chosen column: with `k - 1` tokens already stacked it
lands in row `height - k`; the column's count rises by one and no other
column's count changes, so the `k`-th success on a column occupies row
`height - k`. -/
theorem c2_gravity (g : ConnectFour2p) (c : Int) (g' : ConnectFour2p)
    (hreach : Reachable g) (h : g.emplace c = (g', true)) :
    g'.last_pos_r = g.board.height - 1 - (colCount g.board c : Int) ∧
    g.board.get g'.last_pos_r c = none ∧
    (∀ r : Int, g'.last_pos_r < r → r < g.board.height →
      (g.board.get r c).isSome) ∧
    g'.board.get g'.last_pos_r c = some ⟨g'.last_pos_r, c, g.turn⟩ ∧
    (colCount g'.board c : Int) = (colCount g.board c : Int) + 1 ∧
    (∀ c' : Int, c' ≠ c → colCount g'.board c' = colCount g.board c') := by
  have hInv := Inv_reachable g hreach
  obtain ⟨hplay, hc0, hcw, rp, h0, h1, h2, h3, h4⟩ := emplace_true_spec g c g' h
  subst h4
  have hlast := placeResult_last g c rp
  have hboard := placeResult_board g c rp
  rw [hlast.1, hboard]
  refine ⟨?_, h2, h3, ?_, ?_, ?_⟩
  · have := colCount_of_lowest_empty g hInv c rp ⟨h0, h1⟩ h2 h3
    omega
  · exact Board.get_set_self g.board rp c g.turn ⟨h0, h1⟩ ⟨hc0, hcw⟩
  · exact colCount_after_place g hInv c rp ⟨hc0, hcw⟩ ⟨h0, h1⟩ h2 h3
  · intro c' hc'
    exact colCount_set_other g.board rp c g.turn c' hc' ⟨hc0, hcw⟩

/-- C2 witness: the second token in column 0 of a fresh 4×4 board lands in
row `height - 2 = 2`. -/
theorem c2_witness :
    (playSeq (ConnectFour2p.new 4 4) [0, 0]).last_pos_r =
      (playSeq (ConnectFour2p.new 4 4) [0]).board.height - 1 -
        (colCount (playSeq (ConnectFour2p.new 4 4) [0]).board 0 : Int) ∧
    (playSeq (ConnectFour2p.new 4 4) [0]).board.get
      (playSeq (ConnectFour2p.new 4 4) [0, 0]).last_pos_r 0 = none ∧
    (playSeq (ConnectFour2p.new 4 4) [0, 0]).last_pos_r = 2 := by
  have h : (playSeq (ConnectFour2p.new 4 4) [0]).emplace 0 =
      (playSeq (ConnectFour2p.new 4 4) [0, 0], true) := by decide
  have hmain := c2_gravity _ 0 _
    (Reachable_playSeq _ _ (Reachable.new 4 4)) h
  exact ⟨hmain.1, hmain.2.1, by decide⟩

/-- C3: `emplace` with an out-of-range column, a full column, or a status
other than `Playing` returns `false` and leaves the whole engine — board,
turn and status — unchanged. -/
theorem c3_invalid_move_noop (g : ConnectFour2p) (c : Int)
    (h : g.state ≠ GameStatus.Playing ∨ c < 0 ∨ g.board.width ≤ c ∨
      (∀ r : Int, 0 ≤ r → r < g.board.height → (g.board.get r c).isSome)) :
    g.emplace c = (g, false) := by
  by_cases hv : g.state = GameStatus.Playing ∧ 0 ≤ c ∧ c < g.board.width
  · obtain ⟨hv1, hv2, hv3⟩ := hv
    have hfull : ∀ r : Int, 0 ≤ r → r < g.board.height →
        (g.board.get r c).isSome := by
      rcases h with h | h | h | h
      · exact absurd hv1 h
      · omega
      · omega
      · exact h
    unfold emplace
    rw [if_pos ⟨hv1, hv2, hv3⟩, rowList_eq_rseq]
    apply emplaceScan_all_full
    intro r hr
    have hb := rseq_mem _ r hr
    exact hfull r hb.1 (by omega)
  · exact emplace_invalid g c hv

/-- C3 witness: column 9 is out of range on a 7-wide board; `emplace` is a
no-op returning `false`. -/
theorem c3_witness :
    (ConnectFour2p.new 7 6).emplace 9 = (ConnectFour2p.new 7 6, false) :=
  c3_invalid_move_noop (ConnectFour2p.new 7 6) 9
    (Or.inr (Or.inr (Or.inl (by decide))))

/-- C4: when a successful move both completes a four-line for the mover and
fills the last empty cell, the status is `Won{mover}`, not `Closed`: the win
check runs strictly before the draw check. -/
theorem c4_win_before_draw (g : ConnectFour2p) (c : Int) (g' : ConnectFour2p)
    (hreach : Reachable g) (hplay : g.state = GameStatus.Playing)
    (h : g.emplace c = (g', true))
    (hline : hasLineThrough g'.board g.turn g'.last_pos_r g'.last_pos_c)
    (hfull : (g'.board.data.length : Int) =
      g'.board.width * g'.board.height) :
    g'.state = GameStatus.Won g.turn ∧ g'.state ≠ GameStatus.Closed := by
  have hwon := (emplace_win_core g c g' hreach hplay h).1 hline
  refine ⟨hwon.1, ?_⟩
  rw [hwon.1]
  simp

/-- C4 witness: on a 4×3 board the twelfth move fills the final cell while
completing a blue row; the result is `Won{Blue}`, not `Closed`. -/
theorem c4_witness :
    (playSeq (ConnectFour2p.new 4 3)
      [0, 0, 1, 0, 1, 1, 2, 3, 2, 2, 3, 3]).state =
      GameStatus.Won Player.Blue ∧
    (playSeq (ConnectFour2p.new 4 3)
      [0, 0, 1, 0, 1, 1, 2, 3, 2, 2, 3, 3]).state ≠ GameStatus.Closed := by
  have h : (playSeq (ConnectFour2p.new 4 3)
      [0, 0, 1, 0, 1, 1, 2, 3, 2, 2, 3]).emplace 3 =
      (playSeq (ConnectFour2p.new 4 3)
        [0, 0, 1, 0, 1, 1, 2, 3, 2, 2, 3, 3], true) := by decide
  have hline : hasLineThrough
      (playSeq (ConnectFour2p.new 4 3)
        [0, 0, 1, 0, 1, 1, 2, 3, 2, 2, 3, 3]).board
      (playSeq (ConnectFour2p.new 4 3)
        [0, 0, 1, 0, 1, 1, 2, 3, 2, 2, 3]).turn
      (playSeq (ConnectFour2p.new 4 3)
        [0, 0, 1, 0, 1, 1, 2, 3, 2, 2, 3, 3]).last_pos_r
      (playSeq (ConnectFour2p.new 4 3)
        [0, 0, 1, 0, 1, 1, 2, 3, 2, 2, 3, 3]).last_pos_c := by
    refine ⟨(0, 1), by decide, 3, 0, by decide, ?_⟩
    intro j hj
    interval_cases j
    · exact ⟨⟨0, 0, Player.Blue⟩, by decide, rfl⟩
    · exact ⟨⟨0, 1, Player.Blue⟩, by decide, rfl⟩
    · exact ⟨⟨0, 2, Player.Blue⟩, by decide, rfl⟩
    · exact ⟨⟨0, 3, Player.Blue⟩, by decide, rfl⟩
  have hmain := c4_win_before_draw _ 3 _
    (Reachable_playSeq _ _ (Reachable.new 4 3)) (by decide) h hline (by decide)
  have hturn : (playSeq (ConnectFour2p.new 4 3)
      [0, 0, 1, 0, 1, 1, 2, 3, 2, 2, 3]).turn = Player.Blue := by decide
  rw [hturn] at hmain
  exact hmain

end ConnectFour2p

namespace ConnectFour2p

/-- C5 counterexample: closing a just-won game is reachable by `emplace` and
`close` calls, gives status `Closed`, and yet `get_winner()` returns
`some Blue` (the toggled turn, read off the grid) instead of `none` — so
`get_winner` is not a pure projection of the status on all reachable
states. -/
theorem c5_counterexample :
    Reachable (playSeq (ConnectFour2p.new 4 4) [0, 1, 0, 1, 0, 1, 0]).close ∧
    (playSeq (ConnectFour2p.new 4 4) [0, 1, 0, 1, 0, 1, 0]).close.state =
      GameStatus.Closed ∧
    (playSeq (ConnectFour2p.new 4 4) [0, 1, 0, 1, 0, 1, 0]).close.get_winner =
      some Player.Blue := by
  refine ⟨Reachable.close _ (Reachable_playSeq _ _ (Reachable.new 4 4)),
    by decide, by decide⟩

/-- C5 (amended): as long as `close` is never invoked while the status is
`Won` — the discipline the calling layer follows — `get_winner()` is a pure
projection of the status: `some p` when `Won{p}`, `none` when `Playing` or
`Closed`. -/
theorem c5_get_winner_projection (g : ConnectFour2p)
    (h : ReachableNoCloseOnWon g) :
    (∀ p : Player, g.state = GameStatus.Won p → g.get_winner = some p) ∧
    ((g.state = GameStatus.Playing ∨ g.state = GameStatus.Closed) →
      g.get_winner = none) := by
  constructor
  · intro p hp
    exact get_winner_won g p hp
  · intro hs
    have hne : ∀ p, g.state ≠ GameStatus.Won p := by
      intro p hp
      rcases hs with hs | hs <;> rw [hs] at hp <;>
        exact GameStatus.noConfusion hp
    have hlt := lineMax_lt_of_no_close_on_won g h hne
    rw [get_winner_of_ne_won g hne, if_neg (by omega)]

/-- C5 witness: a drawn 2×1 game is `Closed` and `get_winner()` is `none`. -/
theorem c5_witness :
    (playSeq (ConnectFour2p.new 2 1) [0, 1]).state = GameStatus.Closed ∧
    (playSeq (ConnectFour2p.new 2 1) [0, 1]).get_winner = none := by
  have hr : ReachableNoCloseOnWon (playSeq (ConnectFour2p.new 2 1) [0, 1]) :=
    ReachableNoCloseOnWon.emplace _ 1
      (ReachableNoCloseOnWon.emplace _ 0 (ReachableNoCloseOnWon.new 2 1))
  exact ⟨by decide, (c5_get_winner_projection _ hr).2 (Or.inr (by decide))⟩

/-- C6 counterexample: `close()` on a `Won{Red}` state does not leave the
status `Won{Red}` — it overwrites it with `Closed`. -/
theorem c6_counterexample :
    (playSeq (ConnectFour2p.new 4 4) [0, 1, 0, 1, 0, 1, 0]).state =
      GameStatus.Won Player.Red ∧
    (playSeq (ConnectFour2p.new 4 4) [0, 1, 0, 1, 0, 1, 0]).close.state ≠
      GameStatus.Won Player.Red := by
  decide

/-- C6 (amended): `close()` unconditionally sets the status to `Closed`,
including over an already-`Won` status, while leaving the board and the turn
unchanged; the do-not-override-`Won` guard lives in the calling layer, not in
`close()` itself. -/
theorem c6_close_unconditional (g : ConnectFour2p) :
    g.close.state = GameStatus.Closed ∧ g.close.board = g.board ∧
      g.close.turn = g.turn :=
  ⟨rfl, rfl, rfl⟩

/-- C8: after a successful `emplace` the turn is the toggle of the pre-call
turn — also on a game-ending move — and after a failed `emplace` the turn is
unchanged. -/
theorem c8_turn_alternation (g : ConnectFour2p) (c : Int) :
    (g.emplace c).1.turn =
      if (g.emplace c).2 then g.turn.toggle else g.turn := by
  cases hbb : (g.emplace c).2 with
  | false =>
    simp only [Bool.false_eq_true, if_false]
    rw [emplace_false_eq g c hbb]
  | true =>
    simp only [if_true]
    have hpair : g.emplace c = ((g.emplace c).1, true) := by
      rw [← hbb]
    obtain ⟨_, _, _, rp, _, _, _, _, h4⟩ := emplace_true_spec g c _ hpair
    rw [h4, placeResult_turn]

/-- C9: in every reachable state, red tokens minus blue tokens is `0` when it
is Red's turn and `1` when it is Blue's turn. -/
theorem c9_token_balance (g : ConnectFour2p) (h : Reachable g) :
    (redCount g.board : Int) - (blueCount g.board : Int) =
      if g.turn = Player.Red then 0 else 1 := by
  have hInv := Inv_reachable g h
  cases ht : g.turn with
  | Red =>
    rw [if_pos rfl]
    have := hInv.balance.1 ht
    omega
  | Blue =>
    rw [if_neg (by simp)]
    have := hInv.balance.2 ht
    omega

/-- C9 witness: after three successful moves it is Blue's turn and the board
holds one red token more than blue ones. -/
theorem c9_witness :
    (playSeq (ConnectFour2p.new 7 6) [3, 3, 4]).turn = Player.Blue ∧
    (redCount (playSeq (ConnectFour2p.new 7 6) [3, 3, 4]).board : Int) -
      (blueCount (playSeq (ConnectFour2p.new 7 6) [3, 3, 4]).board : Int) =
      1 := by
  have hmain := c9_token_balance (playSeq (ConnectFour2p.new 7 6) [3, 3, 4])
    (Reachable_playSeq (ConnectFour2p.new 7 6) [3, 3, 4] (Reachable.new 7 6))
  have hturn : (playSeq (ConnectFour2p.new 7 6) [3, 3, 4]).turn =
      Player.Blue := by decide
  rw [hturn] at hmain
  simp at hmain
  exact ⟨hturn, hmain⟩

/-- C10: constructing an engine with non-positive width or height succeeds
and yields status `Playing`; on such an engine every `emplace` call, for
every column, returns `false` and changes nothing, so any sequence of moves
leaves the engine in its initial `Playing` state forever. -/
theorem c10_degenerate_inert (w h : Int) (hdeg : w ≤ 0 ∨ h ≤ 0) :
    (ConnectFour2p.new w h).state = GameStatus.Playing ∧
    (∀ g : ConnectFour2p, g.board.width = w → g.board.height = h →
      ∀ c : Int, g.emplace c = (g, false)) ∧
    ∀ cs : List Int, playSeq (ConnectFour2p.new w h) cs =
      ConnectFour2p.new w h := by
  have hstep : ∀ g : ConnectFour2p, g.board.width = w → g.board.height = h →
      ∀ c : Int, g.emplace c = (g, false) := by
    intro g hw hh c
    by_cases hv : g.state = GameStatus.Playing ∧ 0 ≤ c ∧ c < g.board.width
    · rcases hdeg with hd | hd
      · exfalso
        obtain ⟨_, h2, h3⟩ := hv
        omega
      · unfold emplace
        rw [if_pos hv, rowList_eq_rseq]
        have hz : g.board.height.toNat = 0 := by omega
        rw [hz]
        rfl
    · exact emplace_invalid g c hv
  refine ⟨rfl, hstep, ?_⟩
  intro cs
  induction cs with
  | nil => rfl
  | cons c cs ih =>
    have h1 : playSeq (ConnectFour2p.new w h) (c :: cs) =
        playSeq ((ConnectFour2p.new w h).emplace c).1 cs := rfl
    rw [h1, hstep (ConnectFour2p.new w h) rfl rfl c]
    exact ih

/-- C10 witness: a 0-wide engine rejects a move and survives a whole move
sequence untouched, still `Playing`. -/
theorem c10_witness :
    (ConnectFour2p.new 0 6).emplace 3 = (ConnectFour2p.new 0 6, false) ∧
    playSeq (ConnectFour2p.new 0 6) [1, 2, 0] = ConnectFour2p.new 0 6 :=
  ⟨(c10_degenerate_inert 0 6 (Or.inl (by decide))).2.1
      (ConnectFour2p.new 0 6) rfl rfl 3,
    (c10_degenerate_inert 0 6 (Or.inl (by decide))).2.2 [1, 2, 0]⟩

end ConnectFour2p

theorem Board.get_eq_hmGet {T : Type} (b : Board T) (r c : Int)
    (h : 0 ≤ r ∧ r < b.height ∧ 0 ≤ c ∧ c < b.width) :
    b.get r c = hmGet b.data (b.rc_to_index r c) := by
  unfold Board.get
  rw [if_pos ⟨h.1, h.2.1, h.2.2⟩]

/-- C7 counterexample: `set` with the out-of-bounds coordinate `(0, 7)` on a
7-wide, 6-high board is not a silent no-op — it changes what `get` returns at
the in-bounds coordinate `(1, 0)`, which shares the flat index
`0 * 7 + 7 = 1 * 7 + 0`. -/
theorem c7_counterexample :
    ¬(0 ≤ (0 : Int) ∧ (0 : Int) < (Board.new Player 7 6).height ∧
      0 ≤ (7 : Int) ∧ (7 : Int) < (Board.new Player 7 6).width) ∧
    (0 ≤ (1 : Int) ∧ (1 : Int) < (Board.new Player 7 6).height ∧
      0 ≤ (0 : Int) ∧ (0 : Int) < (Board.new Player 7 6).width) ∧
    ((Board.new Player 7 6).set 0 7 Player.Red).get 1 0 ≠
      (Board.new Player 7 6).get 1 0 := by
  refine ⟨by decide, by decide, by decide⟩

/-- C7 (amended): `set` is not bounds-checked; it always writes the map entry
at flat index `row * width + column`.  An out-of-bounds `set` therefore leaves
`get` unchanged at every coordinate whose flat index differs, but the
in-bounds coordinate sharing that flat index (when one exists) afterwards
reads the freshly inserted token. -/
theorem c7_set_oob_aliasing {T : Type} (b : Board T) (row column : Int)
    (v : T)
    (hoob : ¬(0 ≤ row ∧ row < b.height ∧ 0 ≤ column ∧ column < b.width)) :
    (∀ r' c' : Int, b.rc_to_index r' c' ≠ b.rc_to_index row column →
      (b.set row column v).get r' c' = b.get r' c') ∧
    (∀ r' c' : Int,
      (0 ≤ r' ∧ r' < b.height ∧ 0 ≤ c' ∧ c' < b.width) →
      b.rc_to_index r' c' = b.rc_to_index row column →
      (b.set row column v).get r' c' = some ⟨row, column, v⟩) := by
  constructor
  · intro r' c' hne
    exact Board.get_set_ne_index b row column r' c' v hne
  · intro r' c' hb hidx
    have hget := Board.get_eq_hmGet (b.set row column v) r' c' hb
    rw [hget]
    show hmGet (hmInsert b.data (b.rc_to_index row column)
      ⟨row, column, v⟩) (b.rc_to_index r' c') = some ⟨row, column, v⟩
    rw [hidx]
    exact hmGet_insert_self b.data _ _

/-- C7 witness: after the out-of-bounds `set (0, 7)` on the 7-wide board, the
aliased in-bounds cell `(1, 0)` reads the inserted token, while the
non-aliased cell `(0, 0)` is unchanged. -/
theorem c7_witness :
    ((Board.new Player 7 6).set 0 7 Player.Red).get 1 0 =
      some ⟨0, 7, Player.Red⟩ ∧
    ((Board.new Player 7 6).set 0 7 Player.Red).get 0 0 =
      (Board.new Player 7 6).get 0 0 :=
  ⟨(c7_set_oob_aliasing (Board.new Player 7 6) 0 7 Player.Red (by decide)).2
      1 0 (by decide) (by decide),
    (c7_set_oob_aliasing (Board.new Player 7 6) 0 7 Player.Red (by decide)).1
      0 0 (by decide)⟩
